import Mathlib

/-!
A verification development for the `Intro_Tutorial_2` notebook of the
snorkel repository.  The code authored in that notebook is embedded
shallowly: the `number_of_people` helper (a loop over a sentence's NER
tags), the train/dev/test corpus-splitting loop (with thresholds that
depend on whether the `CI` environment variable is set), the linear
sequence of framework calls performed by the notebook, and the
Document → Sentence → Span context hierarchy consumed through
`get_parent`.  Python sets are embedded as lists (only membership
matters for the properties proved here) and the decimal split
thresholds are embedded as exact rationals.
-/

namespace Snorkel

/-- A parsed sentence as consumed by the notebook: the only attribute the
authored code reads is `ner_tags`, the list of NER tag strings produced by
CoreNLP.  The `id` field stands for object identity of the database-backed
`Sentence` rows collected into the Python sets. -/
structure Sentence where
  id : Nat
  ner_tags : List String
  deriving DecidableEq, Repr

/-- A document with its `name` (used for ordering by the query) and its
`sentences` collection, as traversed by the splitting loop. -/
structure Document where
  name : String
  sentences : List Sentence
  deriving DecidableEq, Repr

/-- The loop body of `number_of_people`, mirroring the Python statement by
statement: `active_sequence` starts `False` and `count` starts `0`; a
`PERSON` tag seen while not in an active sequence opens one and increments
the count; a non-`PERSON` tag seen while active closes it; anything else
leaves the state unchanged. -/
def number_of_people_loop (active : Bool) (count : Nat) : List String → Nat
  | [] => count
  | tag :: rest =>
    if tag = "PERSON" ∧ active = false then
      number_of_people_loop true (count + 1) rest
    else if tag ≠ "PERSON" ∧ active = true then
      number_of_people_loop false count rest
    else
      number_of_people_loop active count rest

/-- `number_of_people(sentence)` from the notebook: run the tag loop over
`sentence.ner_tags` starting from `active_sequence = False`, `count = 0`. -/
def number_of_people (s : Sentence) : Nat :=
  number_of_people_loop false 0 s.ner_tags

/-- Helper for reasoning about the loop: the number of `PERSON` runs that
begin in `l`, given whether the element just before `l` was a `PERSON`
tag (`prevP`). -/
def runsFrom (prevP : Bool) : List String → Nat
  | [] => 0
  | tag :: rest =>
    (if tag = "PERSON" ∧ prevP = false then 1 else 0) +
      runsFrom (decide (tag = "PERSON")) rest

/-- Index `i` starts a maximal contiguous run of `PERSON` tags in `l`:
the tag at `i` is `PERSON` and either `i` is the first position or the
tag just before it is not `PERSON`.  Maximal runs are in bijection with
their start positions, so counting starts counts maximal runs. -/
def startsRun (l : List String) (i : Nat) : Prop :=
  l[i]? = some "PERSON" ∧ (i = 0 ∨ l[i - 1]? ≠ some "PERSON")

instance (l : List String) (i : Nat) : Decidable (startsRun l i) := by
  unfold startsRun
  infer_instance

/-- The number of maximal contiguous runs of the tag `"PERSON"` in `l`,
counted as the number of positions that start such a run. -/
def personRuns (l : List String) : Nat :=
  (List.range l.length).countP (fun i => decide (startsRun l i))

/-- The split thresholds chosen by the notebook:
`splits = (0.8, 0.9) if 'CI' in os.environ else (0.9, 0.95)`.
The environment is embedded as the list of set variable names and the
decimal literals as exact rationals. -/
def splits_of (environ : List String) : ℚ × ℚ :=
  if "CI" ∈ environ then ((8 : ℚ) / 10, (9 : ℚ) / 10)
  else ((9 : ℚ) / 10, (95 : ℚ) / 100)

/-- The innermost statement of the splitting loop: sentence `s` of the
`i`-th document (out of `ld`) is added to `train_sents` when
`i < splits[0] * ld`, to `dev_sents` when additionally
`i < splits[1] * ld`, and to `test_sents` otherwise — but only when
`number_of_people(s) < 5`; otherwise the accumulator is unchanged. -/
def add_to_split (splits : ℚ × ℚ) (ld : ℚ) (i : Nat) (s : Sentence)
    (acc : List Sentence × List Sentence × List Sentence) :
    List Sentence × List Sentence × List Sentence :=
  if number_of_people s < 5 then
    if (i : ℚ) < splits.1 * ld then (s :: acc.1, acc.2.1, acc.2.2)
    else if (i : ℚ) < splits.2 * ld then (acc.1, s :: acc.2.1, acc.2.2)
    else (acc.1, acc.2.1, s :: acc.2.2)
  else acc

/-- The inner loop `for s in doc.sentences`, threading the three sets. -/
def split_doc (splits : ℚ × ℚ) (ld : ℚ) (i : Nat) :
    List Sentence → List Sentence × List Sentence × List Sentence →
    List Sentence × List Sentence × List Sentence
  | [], acc => acc
  | s :: rest, acc => split_doc splits ld i rest (add_to_split splits ld i s acc)

/-- The outer loop `for i, doc in enumerate(docs)`, threading the three
sets and the running document index. -/
def split_docs (splits : ℚ × ℚ) (ld : ℚ) :
    Nat → List Document → List Sentence × List Sentence × List Sentence →
    List Sentence × List Sentence × List Sentence
  | _, [], acc => acc
  | i, doc :: rest, acc =>
    split_docs splits ld (i + 1) rest (split_doc splits ld i doc.sentences acc)

/-- The whole splitting cell: `ld = len(docs)`, the three sets start
empty, and the nested loops fill them.  The result triple is
`(train_sents, dev_sents, test_sents)`. -/
def split_corpus (environ : List String) (docs : List Document) :
    List Sentence × List Sentence × List Sentence :=
  split_docs (splits_of environ) (docs.length : ℚ) 0 docs ([], [], [])

/-- The kinds of framework calls made by the notebook's code cells. -/
inductive NotebookStep where
  | openSession
  | defineCandidateSchema
  | configureExtractor
  | defineHelper
  | splitCorpus
  | runExtraction
  | queryCandidates
  | inspectResults
  | traverseHierarchy
  deriving DecidableEq, Repr

/-- The notebook's code cells, in the order they appear, classified by the
framework call each performs: the `SnorkelSession` cell, the
`candidate_subclass` cell, the `Ngrams`/`PersonMatcher`/`CandidateExtractor`
cell, the `number_of_people` definition, the splitting loop, the
`cand_extractor.apply(train_sents, split=0)` cell, the candidate query,
the three viewer cells, the four context-hierarchy cells, and the final
cell rerunning extraction for the dev and test splits. -/
def notebook_cells : List NotebookStep :=
  [NotebookStep.openSession,
   NotebookStep.defineCandidateSchema,
   NotebookStep.configureExtractor,
   NotebookStep.defineHelper,
   NotebookStep.splitCorpus,
   NotebookStep.runExtraction,
   NotebookStep.queryCandidates,
   NotebookStep.inspectResults,
   NotebookStep.inspectResults,
   NotebookStep.inspectResults,
   NotebookStep.traverseHierarchy,
   NotebookStep.traverseHierarchy,
   NotebookStep.traverseHierarchy,
   NotebookStep.traverseHierarchy,
   NotebookStep.runExtraction]

/-- Modelled from the spec: the external framework's `Span` context.  The
framework's data model is not part of this file's source; the spec
describes only the containment relation Document → Sentence → Span and
the `get_parent` accessor, so a span carries the id of its parent
sentence together with its own id. -/
structure SpanCtx where
  spanId : Nat
  parentSentId : Nat
  deriving DecidableEq, Repr

/-- Modelled from the spec: the external framework's `Sentence` context,
carrying the id of its parent document and the ids of the spans it
contains. -/
structure SentenceCtx where
  sentId : Nat
  parentDocId : Nat
  spanIds : List Nat
  deriving DecidableEq, Repr

/-- Modelled from the spec: the external framework's `Document` context,
carrying the ids of the sentences it contains. -/
structure DocumentCtx where
  docId : Nat
  sentIds : List Nat
  deriving DecidableEq, Repr

/-- Modelled from the spec: a binary `Spouse` candidate connecting two
`Span` objects, named `person1` and `person2` in the notebook. -/
structure CandidateCtx where
  person1 : SpanCtx
  person2 : SpanCtx
  deriving DecidableEq, Repr

/-- Modelled from the spec: `candidate.get_contexts()`, the list of the
candidate's spans. -/
def CandidateCtx.get_contexts (c : CandidateCtx) : List SpanCtx :=
  [c.person1, c.person2]

/-- Modelled from the spec: a corpus holding the three context layers and
the extracted candidates. -/
structure Corpus where
  documents : List DocumentCtx
  sents : List SentenceCtx
  spans : List SpanCtx
  candidates : List CandidateCtx
  deriving DecidableEq, Repr

/-- Modelled from the spec: `span.get_parent()`, resolving the parent
sentence by id within the corpus. -/
def span_get_parent (c : Corpus) (sp : SpanCtx) : Option SentenceCtx :=
  c.sents.find? (fun st => st.sentId == sp.parentSentId)

/-- Modelled from the spec: `sentence.get_parent()`, resolving the parent
document by id within the corpus. -/
def sent_get_parent (c : Corpus) (st : SentenceCtx) : Option DocumentCtx :=
  c.documents.find? (fun d => d.docId == st.parentDocId)

/-- Well-formedness of the context hierarchy: every span's parent pointer
names a sentence of the corpus that contains the span, every sentence's
parent pointer names a document of the corpus that contains the sentence,
ids are unique at each layer, and every span of a candidate is a span of
the corpus. -/
def Corpus.wf (c : Corpus) : Prop :=
  (∀ sp ∈ c.spans, ∃ st ∈ c.sents,
      st.sentId = sp.parentSentId ∧ sp.spanId ∈ st.spanIds) ∧
  (∀ st ∈ c.sents, ∃ d ∈ c.documents,
      d.docId = st.parentDocId ∧ st.sentId ∈ d.sentIds) ∧
  (c.sents.map SentenceCtx.sentId).Nodup ∧
  (c.documents.map DocumentCtx.docId).Nodup ∧
  (∀ cand ∈ c.candidates, ∀ sp ∈ cand.get_contexts, sp ∈ c.spans)

instance (c : Corpus) : Decidable c.wf := by
  unfold Corpus.wf
  infer_instance

/-- Sample data: two adjacent `PERSON` tags (one person mentioned). -/
def sampleSentA : Sentence := ⟨1, ["PERSON", "PERSON"]⟩

/-- Sample data: a single person in the middle of the sentence. -/
def sampleSentB : Sentence := ⟨2, ["O", "PERSON", "O"]⟩

/-- Sample data: five separated `PERSON` runs, so the sentence is
filtered out of every split. -/
def sampleSentC : Sentence :=
  ⟨3, ["PERSON", "O", "PERSON", "O", "PERSON", "O", "PERSON", "O", "PERSON"]⟩

/-- Sample data: first document of the sample corpus. -/
def sampleDoc1 : Document := ⟨"doc1", [sampleSentA, sampleSentC]⟩

/-- Sample data: second document of the sample corpus. -/
def sampleDoc2 : Document := ⟨"doc2", [sampleSentB]⟩

/-- Sample data: a two-document corpus, ordered by name. -/
def sampleDocs : List Document := [sampleDoc1, sampleDoc2]

/-- Sample data: a well-formed one-candidate context hierarchy. -/
def sampleCorpus : Corpus :=
  { documents := [⟨10, [20, 21]⟩]
    sents := [⟨20, 10, [30, 31]⟩, ⟨21, 10, [32]⟩]
    spans := [⟨30, 20⟩, ⟨31, 20⟩, ⟨32, 21⟩]
    candidates := [⟨⟨30, 20⟩, ⟨31, 20⟩⟩] }

theorem number_of_people_loop_eq (l : List String) (active : Bool) (count : Nat) :
    number_of_people_loop active count l = count + runsFrom active l := by
  induction l generalizing active count with
  | nil => simp [number_of_people_loop, runsFrom]
  | cons tag rest ih =>
    by_cases h : tag = "PERSON" <;> cases active <;>
      simp [number_of_people_loop, runsFrom, h, ih] <;> omega

theorem runsFrom_le_count (l : List String) (prevP : Bool) :
    runsFrom prevP l ≤ l.count "PERSON" := by
  induction l generalizing prevP with
  | nil => simp [runsFrom]
  | cons tag rest ih =>
    have hr := ih (decide (tag = "PERSON"))
    by_cases h : tag = "PERSON" <;> cases prevP <;>
      simp [runsFrom, List.count_cons, h] at hr ⊢ <;> omega

theorem runsFrom_false_pos (l : List String) (hm : "PERSON" ∈ l) :
    0 < runsFrom false l := by
  induction l with
  | nil => cases hm
  | cons tag rest ih =>
    by_cases h : tag = "PERSON"
    · simp [runsFrom, h]
    · have hrest : "PERSON" ∈ rest := by
        rcases List.mem_cons.mp hm with heq | hmem
        · exact absurd heq.symm h
        · exact hmem
      have := ih hrest
      simp [runsFrom, h]
      omega

theorem runsFrom_zero_of_not_mem (l : List String) (hm : "PERSON" ∉ l) :
    ∀ prevP : Bool, runsFrom prevP l = 0 := by
  induction l with
  | nil => intro prevP; simp [runsFrom]
  | cons tag rest ih =>
    intro prevP
    have htag : tag ≠ "PERSON" := fun h => hm (h ▸ List.mem_cons_self tag rest)
    have hrest : "PERSON" ∉ rest := fun h => hm (List.mem_cons_of_mem tag h)
    simp [runsFrom, htag, ih hrest]

theorem runsFrom_eq_countP (l : List String) (prevP : Bool) :
    runsFrom prevP l =
      (List.range l.length).countP
        (fun i => decide (l[i]? = some "PERSON" ∧
          (if i = 0 then prevP = false else l[i - 1]? ≠ some "PERSON"))) := by
  induction l generalizing prevP with
  | nil => simp [runsFrom]
  | cons tag rest ih =>
    rw [runsFrom, List.length_cons, List.range_succ_eq_map, List.countP_cons,
      List.countP_map]
    have hcong :
        (List.range rest.length).countP
            ((fun i => decide ((tag :: rest)[i]? = some "PERSON" ∧
              (if i = 0 then prevP = false
               else (tag :: rest)[i - 1]? ≠ some "PERSON"))) ∘ Nat.succ) =
        (List.range rest.length).countP
            (fun i => decide (rest[i]? = some "PERSON" ∧
              (if i = 0 then (decide (tag = "PERSON")) = false
               else rest[i - 1]? ≠ some "PERSON"))) := by
      apply List.countP_congr
      intro i _
      cases i with
      | zero => by_cases h : tag = "PERSON" <;> simp [h]
      | succ j => simp
    rw [hcong, ← ih]
    by_cases h : tag = "PERSON" <;> cases prevP <;> simp [h] <;> omega

/-- C1: for every sentence, `number_of_people` returns the number of
maximal contiguous runs of the tag `"PERSON"` in `sentence.ner_tags`,
counted as run-start positions by the independent `personRuns`. -/
theorem number_of_people_counts_person_runs (s : Sentence) :
    number_of_people s = personRuns s.ner_tags := by
  rw [number_of_people, number_of_people_loop_eq, Nat.zero_add,
    runsFrom_eq_countP, personRuns]
  apply List.countP_congr
  intro i _
  cases i with
  | zero => simp [startsRun]
  | succ j => simp [startsRun]

/-- C7: `number_of_people` returns a non-negative integer that is at most
the number of `"PERSON"` entries in the tag list, it returns `0` exactly
when no entry equals `"PERSON"`, and it returns `1` on a sentence of two
adjacent `"PERSON"` tags. -/
theorem number_of_people_bounds (s : Sentence) :
    0 ≤ number_of_people s ∧
    number_of_people s ≤ s.ner_tags.count "PERSON" ∧
    (number_of_people s = 0 ↔ "PERSON" ∉ s.ner_tags) ∧
    number_of_people ⟨0, ["PERSON", "PERSON"]⟩ = 1 := by
  have heq : number_of_people s = runsFrom false s.ner_tags := by
    rw [number_of_people, number_of_people_loop_eq, Nat.zero_add]
  refine ⟨Nat.zero_le _, ?_, ⟨?_, ?_⟩, by decide⟩
  · rw [heq]; exact runsFrom_le_count s.ner_tags false
  · intro h0 hmem
    have := runsFrom_false_pos s.ner_tags hmem
    rw [heq] at h0
    omega
  · intro hnm
    rw [heq]
    exact runsFrom_zero_of_not_mem s.ner_tags hnm false

theorem mem_add_to_split_fst (sp : ℚ × ℚ) (ld : ℚ) (i : Nat) (s : Sentence)
    (acc : List Sentence × List Sentence × List Sentence) (x : Sentence) :
    x ∈ (add_to_split sp ld i s acc).1 ↔
      (x = s ∧ number_of_people s < 5 ∧ (i : ℚ) < sp.1 * ld) ∨ x ∈ acc.1 := by
  unfold add_to_split
  by_cases h5 : number_of_people s < 5 <;>
    by_cases h1 : (i : ℚ) < sp.1 * ld <;>
      by_cases h2 : (i : ℚ) < sp.2 * ld <;>
        simp [h5, h1, h2]

theorem mem_add_to_split_snd (sp : ℚ × ℚ) (ld : ℚ) (i : Nat) (s : Sentence)
    (acc : List Sentence × List Sentence × List Sentence) (x : Sentence) :
    x ∈ (add_to_split sp ld i s acc).2.1 ↔
      (x = s ∧ number_of_people s < 5 ∧
        (¬((i : ℚ) < sp.1 * ld) ∧ (i : ℚ) < sp.2 * ld)) ∨ x ∈ acc.2.1 := by
  unfold add_to_split
  by_cases h5 : number_of_people s < 5 <;>
    by_cases h1 : (i : ℚ) < sp.1 * ld <;>
      by_cases h2 : (i : ℚ) < sp.2 * ld <;>
        simp [h5, h1, h2]

theorem mem_add_to_split_thd (sp : ℚ × ℚ) (ld : ℚ) (i : Nat) (s : Sentence)
    (acc : List Sentence × List Sentence × List Sentence) (x : Sentence) :
    x ∈ (add_to_split sp ld i s acc).2.2 ↔
      (x = s ∧ number_of_people s < 5 ∧
        (¬((i : ℚ) < sp.1 * ld) ∧ ¬((i : ℚ) < sp.2 * ld))) ∨ x ∈ acc.2.2 := by
  unfold add_to_split
  by_cases h5 : number_of_people s < 5 <;>
    by_cases h1 : (i : ℚ) < sp.1 * ld <;>
      by_cases h2 : (i : ℚ) < sp.2 * ld <;>
        simp [h5, h1, h2]

theorem split_doc_proj
    (proj : List Sentence × List Sentence × List Sentence → List Sentence)
    (sp : ℚ × ℚ) (ld : ℚ) (P : Nat → Prop)
    (hadd : ∀ (i : Nat) (s x : Sentence)
      (acc : List Sentence × List Sentence × List Sentence),
      x ∈ proj (add_to_split sp ld i s acc) ↔
        (x = s ∧ number_of_people s < 5 ∧ P i) ∨ x ∈ proj acc)
    (i : Nat) (sents : List Sentence)
    (acc : List Sentence × List Sentence × List Sentence) (x : Sentence) :
    x ∈ proj (split_doc sp ld i sents acc) ↔
      (x ∈ sents ∧ number_of_people x < 5 ∧ P i) ∨ x ∈ proj acc := by
  induction sents generalizing acc with
  | nil => simp [split_doc]
  | cons s rest ih =>
    rw [split_doc, ih, hadd]
    constructor
    · rintro (⟨hx, hc⟩ | (⟨rfl, hc5, hcP⟩ | hacc))
      · exact Or.inl ⟨List.mem_cons_of_mem _ hx, hc⟩
      · exact Or.inl ⟨List.mem_cons_self _ _, hc5, hcP⟩
      · exact Or.inr hacc
    · rintro (⟨hx, hc⟩ | hacc)
      · rcases List.mem_cons.mp hx with rfl | hx
        · exact Or.inr (Or.inl ⟨rfl, hc⟩)
        · exact Or.inl ⟨hx, hc⟩
      · exact Or.inr (Or.inr hacc)

theorem split_docs_proj
    (proj : List Sentence × List Sentence × List Sentence → List Sentence)
    (sp : ℚ × ℚ) (ld : ℚ) (P : Nat → Prop)
    (hadd : ∀ (i : Nat) (s x : Sentence)
      (acc : List Sentence × List Sentence × List Sentence),
      x ∈ proj (add_to_split sp ld i s acc) ↔
        (x = s ∧ number_of_people s < 5 ∧ P i) ∨ x ∈ proj acc)
    (docs : List Document) :
    ∀ (i : Nat) (acc : List Sentence × List Sentence × List Sentence)
      (x : Sentence),
      x ∈ proj (split_docs sp ld i docs acc) ↔
        (∃ (j : Nat) (doc : Document), docs[j]? = some doc ∧
          x ∈ doc.sentences ∧ number_of_people x < 5 ∧ P (i + j)) ∨
        x ∈ proj acc := by
  induction docs with
  | nil => intro i acc x; simp [split_docs]
  | cons doc rest ih =>
    intro i acc x
    rw [split_docs, ih, split_doc_proj proj sp ld P hadd]
    constructor
    · rintro (⟨j, d, hget, hx, h5, hP⟩ | (⟨hx, h5, hP⟩ | hacc))
      · refine Or.inl ⟨j + 1, d, by simpa using hget, hx, h5, ?_⟩
        have harith : i + 1 + j = i + (j + 1) := by omega
        rwa [harith] at hP
      · exact Or.inl ⟨0, doc, by simp, hx, h5, by simpa using hP⟩
      · exact Or.inr hacc
    · rintro (⟨j, d, hget, hx, h5, hP⟩ | hacc)
      · cases j with
        | zero =>
          have hd : doc = d := by simpa using hget
          subst hd
          exact Or.inr (Or.inl ⟨hx, h5, by simpa using hP⟩)
        | succ j =>
          have hget2 : rest[j]? = some d := by simpa using hget
          refine Or.inl ⟨j, d, hget2, hx, h5, ?_⟩
          have harith : i + (j + 1) = i + 1 + j := by omega
          rwa [harith] at hP
      · exact Or.inr (Or.inr hacc)

theorem mem_split_corpus_train (environ : List String) (docs : List Document)
    (x : Sentence) :
    x ∈ (split_corpus environ docs).1 ↔
      ∃ (j : Nat) (doc : Document), docs[j]? = some doc ∧
        x ∈ doc.sentences ∧ number_of_people x < 5 ∧
        (j : ℚ) < (splits_of environ).1 * (docs.length : ℚ) := by
  unfold split_corpus
  rw [split_docs_proj (fun t => t.1) (splits_of environ) (docs.length : ℚ)
    (fun j => (j : ℚ) < (splits_of environ).1 * (docs.length : ℚ))
    (fun i s x acc =>
      mem_add_to_split_fst (splits_of environ) (docs.length : ℚ) i s acc x)
    docs 0 ([], [], []) x]
  simp

theorem mem_split_corpus_dev (environ : List String) (docs : List Document)
    (x : Sentence) :
    x ∈ (split_corpus environ docs).2.1 ↔
      ∃ (j : Nat) (doc : Document), docs[j]? = some doc ∧
        x ∈ doc.sentences ∧ number_of_people x < 5 ∧
        (¬((j : ℚ) < (splits_of environ).1 * (docs.length : ℚ)) ∧
          (j : ℚ) < (splits_of environ).2 * (docs.length : ℚ)) := by
  unfold split_corpus
  rw [split_docs_proj (fun t => t.2.1) (splits_of environ) (docs.length : ℚ)
    (fun j => ¬((j : ℚ) < (splits_of environ).1 * (docs.length : ℚ)) ∧
      (j : ℚ) < (splits_of environ).2 * (docs.length : ℚ))
    (fun i s x acc =>
      mem_add_to_split_snd (splits_of environ) (docs.length : ℚ) i s acc x)
    docs 0 ([], [], []) x]
  simp

theorem mem_split_corpus_test (environ : List String) (docs : List Document)
    (x : Sentence) :
    x ∈ (split_corpus environ docs).2.2 ↔
      ∃ (j : Nat) (doc : Document), docs[j]? = some doc ∧
        x ∈ doc.sentences ∧ number_of_people x < 5 ∧
        (¬((j : ℚ) < (splits_of environ).1 * (docs.length : ℚ)) ∧
          ¬((j : ℚ) < (splits_of environ).2 * (docs.length : ℚ))) := by
  unfold split_corpus
  rw [split_docs_proj (fun t => t.2.2) (splits_of environ) (docs.length : ℚ)
    (fun j => ¬((j : ℚ) < (splits_of environ).1 * (docs.length : ℚ)) ∧
      ¬((j : ℚ) < (splits_of environ).2 * (docs.length : ℚ)))
    (fun i s x acc =>
      mem_add_to_split_thd (splits_of environ) (docs.length : ℚ) i s acc x)
    docs 0 ([], [], []) x]
  simp

theorem splits_of_fst_le_snd (environ : List String) :
    (splits_of environ).1 ≤ (splits_of environ).2 := by
  unfold splits_of
  by_cases h : "CI" ∈ environ <;> simp [h] <;> norm_num

/-- C2: a sentence `s` of the `i`-th document (docs ordered by name,
`ld = docs.length`, thresholds from `splits_of`) with
`number_of_people s < 5` lands in `train_sents` when
`i < splits.1 * ld`, in `dev_sents` when `splits.1 * ld ≤ i < splits.2 * ld`,
and in `test_sents` when `splits.2 * ld ≤ i`; a sentence with
`number_of_people s ≥ 5` is in no split. -/
theorem split_corpus_assigns_by_doc_index (environ : List String)
    (docs : List Document) (i : Nat) (doc : Document) (s : Sentence)
    (hget : docs[i]? = some doc) (hs : s ∈ doc.sentences) :
    (number_of_people s < 5 →
      (((i : ℚ) < (splits_of environ).1 * (docs.length : ℚ) →
          s ∈ (split_corpus environ docs).1) ∧
        ((splits_of environ).1 * (docs.length : ℚ) ≤ (i : ℚ) →
          (i : ℚ) < (splits_of environ).2 * (docs.length : ℚ) →
          s ∈ (split_corpus environ docs).2.1) ∧
        ((splits_of environ).2 * (docs.length : ℚ) ≤ (i : ℚ) →
          s ∈ (split_corpus environ docs).2.2))) ∧
    (5 ≤ number_of_people s →
      s ∉ (split_corpus environ docs).1 ∧
      s ∉ (split_corpus environ docs).2.1 ∧
      s ∉ (split_corpus environ docs).2.2) := by
  constructor
  · intro h5
    refine ⟨?_, ?_, ?_⟩
    · intro h1
      exact (mem_split_corpus_train environ docs s).mpr ⟨i, doc, hget, hs, h5, h1⟩
    · intro hge1 h2
      exact (mem_split_corpus_dev environ docs s).mpr
        ⟨i, doc, hget, hs, h5, not_lt.mpr hge1, h2⟩
    · intro hge2
      have hle : (splits_of environ).1 * (docs.length : ℚ) ≤
          (splits_of environ).2 * (docs.length : ℚ) :=
        mul_le_mul_of_nonneg_right (splits_of_fst_le_snd environ)
          (Nat.cast_nonneg docs.length)
      exact (mem_split_corpus_test environ docs s).mpr
        ⟨i, doc, hget, hs, h5, not_lt.mpr (le_trans hle hge2), not_lt.mpr hge2⟩
  · intro hge
    refine ⟨?_, ?_, ?_⟩ <;> intro hmem
    · obtain ⟨j, d, _, _, h5, _⟩ := (mem_split_corpus_train environ docs s).mp hmem
      omega
    · obtain ⟨j, d, _, _, h5, _⟩ := (mem_split_corpus_dev environ docs s).mp hmem
      omega
    · obtain ⟨j, d, _, _, h5, _⟩ := (mem_split_corpus_test environ docs s).mp hmem
      omega

/-- Witness for C2 at a concrete corpus: document 0 of the two-document
sample corpus is in the train range without `CI` set, so its first
sentence lands in `train_sents`. -/
theorem split_corpus_assigns_by_doc_index_witness :
    sampleDocs[0]? = some sampleDoc1 ∧ sampleSentA ∈ sampleDoc1.sentences ∧
    number_of_people sampleSentA < 5 ∧
    sampleSentA ∈ (split_corpus [] sampleDocs).1 := by
  refine ⟨by decide, by decide, by decide, ?_⟩
  have h := split_corpus_assigns_by_doc_index [] sampleDocs 0 sampleDoc1
    sampleSentA (by decide) (by decide)
  exact (h.1 (by decide)).1 (by norm_num [splits_of, sampleDocs])

theorem doc_index_unique (docs : List Document)
    (huniq : (docs.map Document.sentences).Pairwise
      (fun l1 l2 => ∀ x ∈ l1, x ∉ l2))
    (s : Sentence) (i j : Nat) (di dj : Document)
    (hi : docs[i]? = some di) (hj : docs[j]? = some dj)
    (hsi : s ∈ di.sentences) (hsj : s ∈ dj.sentences) : i = j := by
  rw [List.pairwise_map] at huniq
  rw [List.getElem?_eq_some_iff] at hi hj
  obtain ⟨hilt, hie⟩ := hi
  obtain ⟨hjlt, hje⟩ := hj
  rcases Nat.lt_trichotomy i j with hlt | heq | hgt
  · have hdisj := (List.pairwise_iff_getElem.mp huniq) i j hilt hjlt hlt
    rw [hie, hje] at hdisj
    exact absurd hsj (hdisj s hsi)
  · exact heq
  · have hdisj := (List.pairwise_iff_getElem.mp huniq) j i hjlt hilt hgt
    rw [hie, hje] at hdisj
    exact absurd hsi (hdisj s hsj)

/-- C3: assuming no sentence occurs in two distinct documents, the three
split sets are pairwise disjoint, and every sentence in any of them has
fewer than five people. -/
theorem split_corpus_disjoint_and_filtered (environ : List String)
    (docs : List Document) (s : Sentence)
    (huniq : (docs.map Document.sentences).Pairwise
      (fun l1 l2 => ∀ x ∈ l1, x ∉ l2)) :
    (s ∈ (split_corpus environ docs).1 → s ∉ (split_corpus environ docs).2.1) ∧
    (s ∈ (split_corpus environ docs).1 → s ∉ (split_corpus environ docs).2.2) ∧
    (s ∈ (split_corpus environ docs).2.1 →
      s ∉ (split_corpus environ docs).2.2) ∧
    ((s ∈ (split_corpus environ docs).1 ∨ s ∈ (split_corpus environ docs).2.1 ∨
        s ∈ (split_corpus environ docs).2.2) → number_of_people s < 5) := by
  refine ⟨?_, ?_, ?_, ?_⟩
  · intro ht hd
    obtain ⟨i, di, hgi, hsi, _, hci⟩ :=
      (mem_split_corpus_train environ docs s).mp ht
    obtain ⟨j, dj, hgj, hsj, _, hcj⟩ :=
      (mem_split_corpus_dev environ docs s).mp hd
    have hij := doc_index_unique docs huniq s i j di dj hgi hgj hsi hsj
    subst hij
    exact hcj.1 hci
  · intro ht he
    obtain ⟨i, di, hgi, hsi, _, hci⟩ :=
      (mem_split_corpus_train environ docs s).mp ht
    obtain ⟨j, dj, hgj, hsj, _, hcj⟩ :=
      (mem_split_corpus_test environ docs s).mp he
    have hij := doc_index_unique docs huniq s i j di dj hgi hgj hsi hsj
    subst hij
    exact hcj.1 hci
  · intro hd he
    obtain ⟨i, di, hgi, hsi, _, hci⟩ :=
      (mem_split_corpus_dev environ docs s).mp hd
    obtain ⟨j, dj, hgj, hsj, _, hcj⟩ :=
      (mem_split_corpus_test environ docs s).mp he
    have hij := doc_index_unique docs huniq s i j di dj hgi hgj hsi hsj
    subst hij
    exact hcj.2 hci.2
  · rintro (h | h | h)
    · obtain ⟨_, _, _, _, h5, _⟩ := (mem_split_corpus_train environ docs s).mp h
      exact h5
    · obtain ⟨_, _, _, _, h5, _⟩ := (mem_split_corpus_dev environ docs s).mp h
      exact h5
    · obtain ⟨_, _, _, _, h5, _⟩ := (mem_split_corpus_test environ docs s).mp h
      exact h5

/-- Witness for C3 at the concrete sample corpus, whose documents have
disjoint sentence lists. -/
theorem split_corpus_disjoint_and_filtered_witness :
    (sampleDocs.map Document.sentences).Pairwise
      (fun l1 l2 => ∀ x ∈ l1, x ∉ l2) ∧
    ((sampleSentA ∈ (split_corpus [] sampleDocs).1 →
        sampleSentA ∉ (split_corpus [] sampleDocs).2.1) ∧
      (sampleSentA ∈ (split_corpus [] sampleDocs).1 →
        sampleSentA ∉ (split_corpus [] sampleDocs).2.2) ∧
      (sampleSentA ∈ (split_corpus [] sampleDocs).2.1 →
        sampleSentA ∉ (split_corpus [] sampleDocs).2.2) ∧
      ((sampleSentA ∈ (split_corpus [] sampleDocs).1 ∨
          sampleSentA ∈ (split_corpus [] sampleDocs).2.1 ∨
          sampleSentA ∈ (split_corpus [] sampleDocs).2.2) →
        number_of_people sampleSentA < 5)) :=
  ⟨by decide,
    split_corpus_disjoint_and_filtered [] sampleDocs sampleSentA (by decide)⟩

/-- C4: the authored code is total: on every environment and document
list the splitting computation terminates with a defined result (the
embedding is a total Lean function), and every sentence it outputs is a
sentence of an input document — no other code path or failure mode
exists.  The first conjunct records that the tag-counting helper, too,
returns a defined, bounded value on every input list of tag strings. -/
theorem split_corpus_total_and_conservative (environ : List String)
    (docs : List Document) (s : Sentence)
    (hmem : s ∈ (split_corpus environ docs).1 ∨
      s ∈ (split_corpus environ docs).2.1 ∨
      s ∈ (split_corpus environ docs).2.2) :
    (∀ tags : List String, number_of_people ⟨0, tags⟩ ≤ tags.length) ∧
    ∃ doc, doc ∈ docs ∧ s ∈ doc.sentences := by
  refine ⟨?_, ?_⟩
  · intro tags
    have h1 : number_of_people ⟨0, tags⟩ = runsFrom false tags := by
      rw [number_of_people, number_of_people_loop_eq, Nat.zero_add]
    rw [h1]
    exact le_trans (runsFrom_le_count tags false) (List.count_le_length _ _)
  rcases hmem with h | h | h
  · obtain ⟨j, d, hg, hx, _, _⟩ := (mem_split_corpus_train environ docs s).mp h
    exact ⟨d, List.getElem?_mem hg, hx⟩
  · obtain ⟨j, d, hg, hx, _, _⟩ := (mem_split_corpus_dev environ docs s).mp h
    exact ⟨d, List.getElem?_mem hg, hx⟩
  · obtain ⟨j, d, hg, hx, _, _⟩ := (mem_split_corpus_test environ docs s).mp h
    exact ⟨d, List.getElem?_mem hg, hx⟩

/-- Witness for C4 at the concrete sample corpus. -/
theorem split_corpus_total_and_conservative_witness :
    sampleSentA ∈ (split_corpus [] sampleDocs).1 ∧
    (∀ tags : List String, number_of_people ⟨0, tags⟩ ≤ tags.length) ∧
    ∃ doc, doc ∈ sampleDocs ∧ sampleSentA ∈ doc.sentences := by
  have hm : sampleSentA ∈ (split_corpus [] sampleDocs).1 :=
    (mem_split_corpus_train [] sampleDocs sampleSentA).mpr
      ⟨0, sampleDoc1, by decide, by decide, by decide,
        by norm_num [splits_of, sampleDocs]⟩
  exact ⟨hm,
    split_corpus_total_and_conservative [] sampleDocs sampleSentA (Or.inl hm)⟩

/-- C8: the splitting computation is deterministic and depends on the
environment only through the presence of `CI`: two environments agreeing
on `CI` yield identical split results on the same document list. -/
theorem split_corpus_deterministic (env1 env2 : List String)
    (docs : List Document) (h : "CI" ∈ env1 ↔ "CI" ∈ env2) :
    split_corpus env1 docs = split_corpus env2 docs := by
  have hsp : splits_of env1 = splits_of env2 := by
    unfold splits_of
    by_cases h1 : "CI" ∈ env1
    · rw [if_pos h1, if_pos (h.mp h1)]
    · rw [if_neg h1, if_neg (fun hc => h1 (h.mpr hc))]
  unfold split_corpus
  rw [hsp]

/-- Witness for C8 at two concrete environments that both set `CI`. -/
theorem split_corpus_deterministic_witness :
    ("CI" ∈ ["CI", "HOME"] ↔ "CI" ∈ ["PATH", "CI"]) ∧
    split_corpus ["CI", "HOME"] sampleDocs =
      split_corpus ["PATH", "CI"] sampleDocs :=
  ⟨by decide,
    split_corpus_deterministic ["CI", "HOME"] ["PATH", "CI"] sampleDocs
      (by decide)⟩

/-- C5: the notebook's cells perform the six pipeline stages in the fixed
order open session → define candidate schema → configure extractor →
split corpus → run extraction → inspect results: that six-step sequence
occurs as an ordered subsequence of the cell list, so each stage occurs
and occurs after the previous one. -/
theorem notebook_steps_in_order :
    List.Sublist
      [NotebookStep.openSession, NotebookStep.defineCandidateSchema,
        NotebookStep.configureExtractor, NotebookStep.splitCorpus,
        NotebookStep.runExtraction, NotebookStep.inspectResults]
      notebook_cells := by
  decide

/-- C6: in a well-formed context hierarchy, for every span obtained from
an extracted candidate's `get_contexts`, `get_parent` resolves to the
sentence containing the span, and `get_parent` of that sentence resolves
to the document containing the sentence. -/
theorem span_parent_is_containing_sentence (c : Corpus) (cand : CandidateCtx)
    (sp : SpanCtx) (hwf : c.wf) (hcand : cand ∈ c.candidates)
    (hsp : sp ∈ cand.get_contexts) :
    ∃ st, span_get_parent c sp = some st ∧ st ∈ c.sents ∧
      sp.spanId ∈ st.spanIds ∧
      ∃ d, sent_get_parent c st = some d ∧ d ∈ c.documents ∧
        st.sentId ∈ d.sentIds := by
  obtain ⟨hspan, hsent, hnodupS, hnodupD, hcands⟩ := hwf
  have hspc : sp ∈ c.spans := hcands cand hcand sp hsp
  obtain ⟨st, hstmem, hstid, hcont⟩ := hspan sp hspc
  have hfind : (c.sents.find? (fun u => u.sentId == sp.parentSentId)).isSome := by
    rw [List.find?_isSome]
    exact ⟨st, hstmem, by simp [hstid]⟩
  obtain ⟨st2, hst2⟩ := Option.isSome_iff_exists.mp hfind
  have hst2mem : st2 ∈ c.sents := List.mem_of_find?_eq_some hst2
  have hst2id : st2.sentId = sp.parentSentId := by
    have hp := List.find?_some hst2
    simpa using hp
  have hst2eq : st2 = st :=
    List.inj_on_of_nodup_map hnodupS hst2mem hstmem (by rw [hst2id, hstid])
  subst hst2eq
  obtain ⟨d, hdmem, hdid, hdcont⟩ := hsent st2 hst2mem
  have hfindd :
      (c.documents.find? (fun u => u.docId == st2.parentDocId)).isSome := by
    rw [List.find?_isSome]
    exact ⟨d, hdmem, by simp [hdid]⟩
  obtain ⟨d2, hd2⟩ := Option.isSome_iff_exists.mp hfindd
  have hd2mem : d2 ∈ c.documents := List.mem_of_find?_eq_some hd2
  have hd2id : d2.docId = st2.parentDocId := by
    have hp := List.find?_some hd2
    simpa using hp
  have hd2eq : d2 = d :=
    List.inj_on_of_nodup_map hnodupD hd2mem hdmem (by rw [hd2id, hdid])
  subst hd2eq
  exact ⟨st2, hst2, hst2mem, hcont, d2, hd2, hd2mem, hdcont⟩

/-- Witness for C6 at the concrete one-candidate sample hierarchy. -/
theorem span_parent_is_containing_sentence_witness :
    sampleCorpus.wf ∧
    ∃ st, span_get_parent sampleCorpus ⟨30, 20⟩ = some st ∧
      st ∈ sampleCorpus.sents ∧ (30 : Nat) ∈ st.spanIds ∧
      ∃ d, sent_get_parent sampleCorpus st = some d ∧
        d ∈ sampleCorpus.documents ∧ st.sentId ∈ d.sentIds :=
  ⟨by decide,
    span_parent_is_containing_sentence sampleCorpus ⟨⟨30, 20⟩, ⟨31, 20⟩⟩
      ⟨30, 20⟩ (by decide) (by decide) (by decide)⟩

end Snorkel
